import Mathlib

/-!
Shallow embedding of the union-find surface-code decoder core:
the node-tree elements (`Node`, `Syndrome`, `Junction`, `Boundary`, `Filler`
with `ns_parity` and `ns_delay` from
`opensurfacesim/decoders/ufns/elements.py`) and the lattice graph objects
(`iGraph`, `iCluster`, `iStab`, `iQubit`, `iEdge` from `graph_objects.py`).

Python objects are modelled as immutable records; mutation becomes explicit
state passing, and object pointers become identifiers (a stabilizer's
`cluster` pointer is the cluster id, an edge pointer is the owning qubit id
plus a flag selecting the `VXE`/`PZE` sub-edge).  The node-tree is modelled
as a rooted tree (a mutual tree/forest inductive): a node's `children` are
exactly its `neighbors` excluding the parent, which is how the recursive
methods `ns_parity` and `ns_delay` traverse the structure (they skip the
`parent` argument, and the node-tree is acyclic).  Python integers are
`Int`; the half-integer `delay` values produced by `radius/2` are `ℚ`.
The `primer` back-reference between a node and its ancilla qubit carries no
data used by the methods modelled here and is omitted.
-/

/-- Variant tag of a node-tree element: the four concrete subclasses of
`Node` in `elements.py`. -/
inductive NKind where
  | syndrome
  | junction
  | boundary
  | filler
deriving DecidableEq

mutual
/-- A node of the node-tree with its mutable fields
(`radius`, `parity`, `delay`, `waited`, `root_list`) and its children
(the `neighbors` excluding the parent) together with the edge lengths. -/
inductive NTree where
  | mk (kind : NKind) (radius : Int) (parity : Int) (delay : ℚ) (waited : Int)
      (rootList : List Int) (children : NForest)

/-- The list of `(child node, edge length)` pairs of a node. -/
inductive NForest where
  | nil
  | cons (child : NTree) (edge : Int) (rest : NForest)
end

def NTree.kind : NTree → NKind
  | .mk k _ _ _ _ _ _ => k

def NTree.radius : NTree → Int
  | .mk _ r _ _ _ _ _ => r

def NTree.parity : NTree → Int
  | .mk _ _ p _ _ _ _ => p

def NTree.delay : NTree → ℚ
  | .mk _ _ _ d _ _ _ => d

def NTree.waited : NTree → Int
  | .mk _ _ _ _ w _ _ => w

def NTree.rootList : NTree → List Int
  | .mk _ _ _ _ _ rl _ => rl

def NTree.children : NTree → NForest
  | .mk _ _ _ _ _ _ f => f

/-- `Node.__init__` (with the `Boundary.__init__`/`Filler.__init__`
overrides): all scratch fields zeroed and no neighbors; `Boundary` and
`Filler` additionally set `parity = 1` after the base constructor runs. -/
def node_init (k : NKind) : NTree :=
  .mk k 0 (match k with | .boundary => 1 | .filler => 1 | _ => 0) 0 0 [] .nil

/-- Python's `x % 1` on the exact half-integer values produced by
`radius/2 - parent.radius/2`: the remainder carries the sign of the divisor
`1`, i.e. it equals `x - ⌊x⌋ = Int.fract x`. -/
def pyMod1 (q : ℚ) : ℚ := Int.fract q

/-- Python's `(-1) ** p` for an integer exponent `p`. -/
def pyNegOnePow (p : Int) : ℚ := (-1 : ℚ) ^ p

/-- `if min_delay is None or (self.delay < min_delay): min_delay = self.delay`
from `Node.ns_delay`, as one step updating the running minimum. -/
def minStep (m : Option ℚ) (d : ℚ) : Option ℚ :=
  match m with
  | none => some d
  | some mv => if d < mv then some d else some mv

mutual
/-- `Node.ns_delay`: resets `root_list`/`waited`, recomputes `delay` from the
parent data `(parent.delay, parent.radius, parent.parity, edge length)` when
a parent is given, threads the running minimum through `minStep`, and
recurses into the children (the neighbors other than the parent).  Returns
the updated tree together with the returned `min_delay`. -/
def ns_delay : NTree → Option (ℚ × Int × Int × Int) → Option ℚ → NTree × Option ℚ
  | .mk k r p d _ _ f, none, minDelay =>
      let res := ns_delay_forest f d r p minDelay
      (.mk k r p d 0 [] res.1, res.2)
  | .mk k r p _ _ _ f, some (pd, pr, pp, edge), minDelay =>
      let nd := pd + pyMod1 ((r : ℚ) / 2 - (pr : ℚ) / 2) - (edge : ℚ) * pyNegOnePow pp
      let m1 := minStep minDelay nd
      let res := ns_delay_forest f nd r p m1
      (.mk k r p nd 0 [] res.1, res.2)

/-- The `for node, edge in self.neighbors: if node is not parent:` loop of
`ns_delay`, recursing with the parent's freshly updated delay, its radius and
its parity. -/
def ns_delay_forest : NForest → ℚ → Int → Int → Option ℚ → NForest × Option ℚ
  | .nil, _, _, _, m => (.nil, m)
  | .cons c e rest, pd, pr, pp, m =>
      let resc := ns_delay c (some (pd, pr, pp, e)) m
      let resr := ns_delay_forest rest pd pr pp resc.2
      (.cons resc.1 e resr.1, resr.2)
end

mutual
/-- `Syndrome.ns_parity` / `Junction.ns_parity` / `Boundary.ns_parity` /
`Filler.ns_parity`, dispatched on the variant tag.  `Syndrome` stores and
returns `sum([1 - child parity]) % 2`, `Junction` stores and returns
`1 - (sum([1 - child parity]) % 2)`, and `Boundary`/`Filler` just return the
stored parity without recursing.  Returns the updated tree and the returned
parity. -/
def ns_parity : NTree → NTree × Int
  | .mk .syndrome r _ d w rl f =>
      let res := parity_comprehension f
      let p := res.2.sum % 2
      (.mk .syndrome r p d w rl res.1, p)
  | .mk .junction r _ d w rl f =>
      let res := parity_comprehension f
      let p := 1 - res.2.sum % 2
      (.mk .junction r p d w rl res.1, p)
  | .mk .boundary r p d w rl f => (.mk .boundary r p d w rl f, p)
  | .mk .filler r p d w rl f => (.mk .filler r p d w rl f, p)

/-- The list comprehension
`[1 - node.ns_parity(self) for node, _ in self.neighbors if node is not parent_node]`
of `ns_parity`: recursively updates each child and collects
`1 - (returned parity)`. -/
def parity_comprehension : NForest → NForest × List Int
  | .nil => (.nil, [])
  | .cons c e rest =>
      let resc := ns_parity c
      let resr := parity_comprehension rest
      (.cons resc.1 e resr.1, (1 - resc.2) :: resr.2)
end

/-- The children of a forest as a plain list of trees. -/
def forestList : NForest → List NTree
  | .nil => []
  | .cons c _ rest => c :: forestList rest

/-- Folding `minStep` over a list of delays: the running minimum that
`ns_delay` computes over the delays it visits. -/
def accMin (m : Option ℚ) (l : List ℚ) : Option ℚ := l.foldl minStep m

mutual
/-- The delays stored in a tree, root first and then the subtrees in order —
the order in which `ns_delay` visits the nodes. -/
def allDelays : NTree → List ℚ
  | .mk _ _ _ d _ _ f => d :: forestDelays f

/-- The delays stored in a forest, in visit order. -/
def forestDelays : NForest → List ℚ
  | .nil => []
  | .cons c _ rest => allDelays c ++ forestDelays rest
end

/-- A two-node tree: a root of parity `1` with a single child at edge
length `1` (both of radius `0`).  `ns_delay` gives the child delay
`0 + 0 - 1 * (-1)^1 = 1` while the root keeps delay `0`. -/
def tEx : NTree :=
  .mk .syndrome 0 1 0 0 [] (.cons (.mk .syndrome 0 0 0 0 [] .nil) 1 .nil)

/-- `sID` identities `(ertype, y, x)` of stabilizers. -/
abbrev SID := Int × Int × Int

/-- `qID` identities `(y, x, td)` of qubits. -/
abbrev QID := Int × Int × Int

/-- The direction tokens `"u"`, `"d"`, `"l"`, `"r"` of the neighbor dicts. -/
inductive Dir where
  | u | d | l | r
deriving DecidableEq

/-- `self.wind = ["u", "d", "l", "r"]` of `iGraph`. -/
def wind : List Dir := [.u, .d, .l, .r]

/-- A pointer to a vertex object: an entry of the `S` dict or of the `B`
dict, by its `sID` key. -/
inductive VRef where
  | vS (sID : SID)
  | vB (sID : SID)
deriving DecidableEq

/-- One value of a `neighbors` dict: a `(vertex, edge)` pair, the edge
pointer being the owning qubit's `qID` plus `true` for the `VXE` sub-edge
and `false` for the `PZE` sub-edge. -/
abbrev NbEntry := VRef × QID × Bool

/-- `iEdge`: the fixed `type` plus the iteration fields. -/
structure iEdge where
  type : Int × Int
  cluster : Option Int
  state : Int
  support : Int
  peeled : Int
  matching : Int

/-- `iEdge.__init__`. -/
def iEdge.init (t : Int × Int) : iEdge := ⟨t, none, 0, 0, 0, 0⟩

/-- `iEdge.reset`. -/
def iEdge.reset (e : iEdge) : iEdge :=
  { e with cluster := none, state := 0, support := 0, peeled := 0, matching := 0 }

/-- `iEdge.grow_reset`. -/
def iEdge.grow_reset (e : iEdge) : iEdge :=
  { e with cluster := none, support := 0, peeled := 0 }

/-- `iQubit`: identity, erasure flag and the two sub-edges. -/
structure iQubit where
  qID : QID
  erasure : Int
  VXE : iEdge
  PZE : iEdge

/-- `iQubit.__init__`: `VXE = iEdge((0, qID[2]))`, `PZE = iEdge((1, 1 - qID[2]))`. -/
def iQubit.init (qID : QID) : iQubit :=
  ⟨qID, 0, iEdge.init (0, qID.2.2), iEdge.init (1, 1 - qID.2.2)⟩

/-- `iQubit.reset`. -/
def iQubit.reset (q : iQubit) : iQubit :=
  { q with erasure := 0, VXE := q.VXE.reset, PZE := q.PZE.reset }

/-- `iQubit.grow_reset`: resets the two sub-edges only (`erasure` is left
alone). -/
def iQubit.grow_reset (q : iQubit) : iQubit :=
  { q with VXE := q.VXE.grow_reset, PZE := q.PZE.grow_reset }

/-- `iStab` (also `iBoundary`, which only overrides `__repr__`): the fixed
`sID` and `neighbors` dict plus the iteration fields.  `tree` is a Python
value that is `False` after `__init__`/`reset` but `None` after
`grow_reset`, hence an `Option Bool`; `cluster` holds a cluster pointer,
modelled by the cluster id. -/
structure iStab where
  sID : SID
  neighbors : Dir → Option NbEntry
  state : Bool
  cluster : Option Int
  tree : Option Bool

/-- `iStab.__init__`. -/
def iStab.init (sID : SID) : iStab := ⟨sID, fun _ => none, false, none, some false⟩

/-- `iStab.reset`. -/
def iStab.reset (st : iStab) : iStab :=
  { st with state := false, cluster := none, tree := some false }

/-- `iStab.grow_reset`: sets `cluster = None` and `tree = None` (not
`False`), and leaves `state` alone. -/
def iStab.grow_reset (st : iStab) : iStab :=
  { st with cluster := none, tree := none }

/-- `iCluster`: `parent` and the members of `childs`/`boundary` are object
pointers, modelled by ids (`self.parent = self` becomes `parent = cID`); no
code in `graph_objects.py` ever appends to `childs`/`boundary`. -/
structure iCluster where
  cID : Int
  size : Int
  parity : Int
  parent : Int
  childs : List (List Int)
  boundary : List (List Int)
  bucket : Int
  support : Int

/-- `iCluster.__init__`. -/
def iCluster.init (cID : Int) : iCluster := ⟨cID, 0, 0, cID, [[], []], [[], []], 0, 0⟩

/-- `iCluster.add_stab`: `size += 1`, `parity += 1` when the stabilizer's
`state` is truthy, and `stab.cluster = self`.  Returns the updated cluster
and the updated stabilizer. -/
def iCluster.add_stab (c : iCluster) (stab : iStab) : iCluster × iStab :=
  ({ c with size := c.size + 1,
            parity := if stab.state then c.parity + 1 else c.parity },
   { stab with cluster := some c.cID })

/-- A sequence of `iCluster.add_stab` calls on one cluster, keeping the
cluster's view of the sequence. -/
def iCluster.add_stab_seq (c : iCluster) (stabs : List iStab) : iCluster :=
  stabs.foldl (fun c st => (c.add_stab st).1) c

/-- `iGraph`: the `C`, `S`, `B`, `Q` dicts as key-value lists. -/
structure iGraph where
  size : Int
  C : List (Int × iCluster)
  S : List (SID × iStab)
  B : List (SID × iStab)
  Q : List (QID × iQubit)

/-- `iGraph.__init__`. -/
def iGraph.init (size : Int) : iGraph := ⟨size, [], [], [], []⟩

/-- `iGraph.add_cluster`: `self.C[cID] = iCluster(cID)` (a fresh key is
appended), returning the new cluster. -/
def iGraph.add_cluster (g : iGraph) (cID : Int) : iGraph × iCluster :=
  let c := iCluster.init cID
  ({ g with C := g.C ++ [(cID, c)] }, c)

/-- `iGraph.reset`: empties `C` and resets every qubit and every stabilizer
of `S` (the `B` dict is not traversed by the source loop). -/
def iGraph.reset (g : iGraph) : iGraph :=
  { g with C := [],
           Q := g.Q.map (fun p => (p.1, p.2.reset)),
           S := g.S.map (fun p => (p.1, p.2.reset)) }

/-- `iGraph.grow_reset`: empties `C` and grow-resets every qubit and every
stabilizer of `S`. -/
def iGraph.grow_reset (g : iGraph) : iGraph :=
  { g with C := [],
           Q := g.Q.map (fun p => (p.1, p.2.grow_reset)),
           S := g.S.map (fun p => (p.1, p.2.grow_reset)) }

/-- Dereference an edge pointer: `stab.neighbors[dir][1].state`.  A dangling
pointer (a `qID` absent from `Q`, which `add_edge`-built graphs never
produce) is modelled as contributing state `0`. -/
def edge_state (g : iGraph) (qid : QID) (isVXE : Bool) : Int :=
  match g.Q.lookup qid with
  | some qb => if isVXE then qb.VXE.state else qb.PZE.state
  | none => 0

/-- The guard of the toggle in `measure_stab`:
`dir in stab.neighbors` and `stab.neighbors[dir][1].state` is truthy. -/
def nb_truthy (g : iGraph) (nb : Dir → Option NbEntry) (dir : Dir) : Bool :=
  match nb dir with
  | some (_, qid, w) => edge_state g qid w != 0
  | none => false

/-- The inner loop of `iGraph.measure_stab` for one stabilizer: for each
direction of `wind`, toggle `stab.state` when the neighbor edge there has a
truthy state.  Only edge states are read, so the surrounding loop over
stabilizers is order-independent. -/
def measure_one (g : iGraph) (stab : iStab) : Bool :=
  wind.foldl (fun s dir => if nb_truthy g stab.neighbors dir then !s else s) stab.state

/-- `iGraph.measure_stab`. -/
def iGraph.measure_stab (g : iGraph) : iGraph :=
  { g with S := g.S.map (fun p => (p.1, { p.2 with state := measure_one g p.2 })) }

/-- How many direction entries of a `neighbors` dict hold an edge with a
truthy state (an edge stored under two directions counts once per entry). -/
def truthy_neighbor_count (g : iGraph) (nb : Dir → Option NbEntry) : Nat :=
  (wind.filter (fun dir => nb_truthy g nb dir)).length

/-- A stabilizer with a set defect flag and no neighbors. -/
def stT : iStab :=
  { sID := (0, 0, 0), neighbors := fun _ => none,
    state := true, cluster := none, tree := some false }

/-- A stabilizer with one neighbor entry (direction `u`) pointing at the
`VXE` sub-edge of qubit `(0, 0, 0)`. -/
def st5 : iStab :=
  { sID := (0, 0, 0),
    neighbors := fun dir => match dir with
      | .u => some (VRef.vS (0, 1, 0), ((0, 0, 0) : QID), true)
      | _ => none,
    state := false, cluster := none, tree := some false }

/-- A qubit whose `VXE` sub-edge has state `1`. -/
def qb5 : iQubit :=
  { qID := (0, 0, 0), erasure := 0,
    VXE := { type := (0, 0), cluster := none, state := 1, support := 0, peeled := 0, matching := 0 },
    PZE := iEdge.init (1, 1) }

/-- A one-stabilizer, one-qubit graph in which the stabilizer sees exactly
one active edge. -/
def gEx5 : iGraph :=
  { size := 3, C := [], S := [((0, 0, 0), st5)], B := [], Q := [((0, 0, 0), qb5)] }

/-- A graph holding a single stabilizer whose defect flag is set. -/
def gEx7 : iGraph :=
  { size := 3, C := [], S := [((0, 0, 0), stT)], B := [], Q := [] }

theorem accMin_cons_some (x d : ℚ) (l : List ℚ) :
    accMin (some x) (d :: l) = accMin (some (if d < x then d else x)) l := by
  simp [accMin, minStep, apply_ite]

theorem accMin_some_le (x : ℚ) (l : List ℚ) :
    ∃ v, accMin (some x) l = some v ∧ v ≤ x := by
  induction l generalizing x with
  | nil => exact ⟨x, rfl, le_refl x⟩
  | cons d rest ih =>
    rw [accMin_cons_some]
    obtain ⟨v, hv, hle⟩ := ih (if d < x then d else x)
    refine ⟨v, hv, le_trans hle ?_⟩
    split
    · exact le_of_lt (by assumption)
    · exact le_refl x

theorem accMin_le_mem (l : List ℚ) (m : Option ℚ) (v : ℚ)
    (h : accMin m l = some v) : ∀ d ∈ l, v ≤ d := by
  induction l generalizing m with
  | nil => intro d hd; exact absurd hd (List.not_mem_nil d)
  | cons d rest ih =>
    intro x hx
    have hstep : ∃ w, minStep m d = some w ∧ w ≤ d := by
      cases m with
      | none => exact ⟨d, rfl, le_refl d⟩
      | some mv =>
        simp only [minStep, apply_ite]
        refine ⟨if d < mv then d else mv, by split <;> rfl, ?_⟩
        split
        · exact le_refl d
        · exact le_of_not_lt (by assumption)
    obtain ⟨w, hw, hwd⟩ := hstep
    have h' : accMin (some w) rest = some v := by
      simpa [accMin, hw] using h
    rcases List.mem_cons.mp hx with hx | hx
    · subst hx
      obtain ⟨v', hv', hle'⟩ := accMin_some_le w rest
      rw [hv'] at h'
      injection h' with h''
      subst h''
      exact le_trans hle' hwd
    · exact ih (some w) h' x hx

theorem accMin_mem (l : List ℚ) (m : Option ℚ) (v : ℚ)
    (h : accMin m l = some v) : m = some v ∨ v ∈ l := by
  induction l generalizing m with
  | nil => exact Or.inl h
  | cons d rest ih =>
    have h' : accMin (minStep m d) rest = some v := by
      simpa [accMin] using h
    rcases ih (minStep m d) h' with hm | hm
    · cases m with
      | none =>
        simp only [minStep] at hm
        injection hm with hm
        exact Or.inr (by rw [← hm]; exact List.mem_cons_self d rest)
      | some mv =>
        simp only [minStep] at hm
        split at hm
        · injection hm with hm
          exact Or.inr (by rw [← hm]; exact List.mem_cons_self d rest)
        · injection hm with hm
          exact Or.inl (by rw [hm])
    · exact Or.inr (List.mem_cons_of_mem d hm)

theorem accMin_none_eq_none (l : List ℚ) (h : accMin none l = none) : l = [] := by
  cases l with
  | nil => rfl
  | cons d rest =>
    exfalso
    have h' : accMin (some d) rest = none := by simpa [accMin, minStep] using h
    obtain ⟨v, hv, _⟩ := accMin_some_le d rest
    rw [hv] at h'
    exact Option.noConfusion h'

theorem accMin_append (m : Option ℚ) (l1 l2 : List ℚ) :
    accMin m (l1 ++ l2) = accMin (accMin m l1) l2 := by
  simp [accMin, List.foldl_append]

mutual
theorem ns_delay_acc (t : NTree) (pa : ℚ × Int × Int × Int) (m : Option ℚ) :
    (ns_delay t (some pa) m).2 = accMin m (allDelays (ns_delay t (some pa) m).1) := by
  cases t with
  | mk k r p d w rl f =>
    obtain ⟨pd, pr, pp, edge⟩ := pa
    simp only [ns_delay, allDelays, accMin, List.foldl_cons]
    exact ns_delay_forest_acc f _ r p _

theorem ns_delay_forest_acc (f : NForest) (pd : ℚ) (pr pp : Int) (m : Option ℚ) :
    (ns_delay_forest f pd pr pp m).2
      = accMin m (forestDelays (ns_delay_forest f pd pr pp m).1) := by
  cases f with
  | nil => simp [ns_delay_forest, forestDelays, accMin]
  | cons c e rest =>
    simp only [ns_delay_forest, forestDelays, accMin_append]
    rw [← ns_delay_acc c (pd, pr, pp, e) m]
    exact ns_delay_forest_acc rest pd pr pp _
end

theorem ns_delay_root_acc (t : NTree) (m : Option ℚ) :
    (ns_delay t none m).2 = accMin m (forestDelays (ns_delay t none m).1.children) := by
  cases t with
  | mk k r p d w rl f =>
    simp only [ns_delay, NTree.children]
    exact ns_delay_forest_acc f d r p m

theorem parity_comprehension_eq : ∀ f : NForest,
    (parity_comprehension f).2 = (forestList f).map (fun c => 1 - (ns_parity c).2)
  | .nil => rfl
  | .cons c e rest => by
      simp [parity_comprehension, forestList, parity_comprehension_eq rest]

theorem foldl_toggle (f : Dir → Bool) (L : List Dir) (s : Bool) :
    L.foldl (fun b dir => if f dir then !b else b) s
      = xor s (decide (Odd (L.countP f))) := by
  induction L generalizing s with
  | nil => simp
  | cons a rest ih =>
    by_cases h : f a = true
    · simp only [List.foldl_cons, List.countP_cons, h, if_true, ih]
      have hodd : decide (Odd (rest.countP f + 1)) = !decide (Odd (rest.countP f)) := by
        rw [decide_eq_decide.mpr Nat.odd_add_one, decide_not]
      rw [hodd]
      generalize decide (Odd (rest.countP f)) = b
      cases s <;> cases b <;> rfl
    · simp only [List.foldl_cons, List.countP_cons, h, if_false, ih]
      simp [h]

theorem measure_one_eq (g : iGraph) (stab : iStab) :
    measure_one g stab
      = xor stab.state (decide (Odd (truthy_neighbor_count g stab.neighbors))) := by
  rw [measure_one, foldl_toggle, truthy_neighbor_count, List.countP_eq_length_filter]

theorem add_stab_seq_parity (stabs : List iStab) (c : iCluster) :
    (iCluster.add_stab_seq c stabs).parity
        = c.parity + ((stabs.filter (fun st => st.state)).length : Int) ∧
    (iCluster.add_stab_seq c stabs).size = c.size + (stabs.length : Int) := by
  induction stabs generalizing c with
  | nil => simp [iCluster.add_stab_seq]
  | cons st rest ih =>
    have h := ih { c with size := c.size + 1,
                          parity := if st.state then c.parity + 1 else c.parity }
    constructor
    · rw [iCluster.add_stab_seq] at h ⊢
      simp only [List.foldl_cons, iCluster.add_stab] at h ⊢
      rw [h.1, List.filter_cons]
      by_cases hs : st.state = true
      · simp [hs]
        ring
      · simp [hs]
    · rw [iCluster.add_stab_seq] at h ⊢
      simp only [List.foldl_cons, iCluster.add_stab] at h ⊢
      rw [h.2, List.length_cons]
      push_cast
      ring

/-- Claim C1: for every node and every call of `ns_delay` with a parent
`(m.delay, m.radius, m.parity)` and an integer edge `length`, the call sets
the node's `delay` to
`m.delay + frac(radius/2 - m.radius/2) - length * (-1)^(m.parity)` with
`frac(x) = x mod 1 = Int.fract x`. -/
theorem ns_delay_sets_child_delay (k : NKind) (r p : Int) (d : ℚ) (w : Int)
    (rl : List Int) (f : NForest) (pd : ℚ) (pr pp edge : Int) (m : Option ℚ) :
    (ns_delay (.mk k r p d w rl f) (some (pd, pr, pp, edge)) m).1.delay
      = pd + Int.fract ((r : ℚ) / 2 - (pr : ℚ) / 2) - (edge : ℚ) * (-1 : ℚ) ^ pp := by
  simp [ns_delay, NTree.delay, pyMod1, pyNegOnePow]

/-- Claim C2: for every `Syndrome` node (its children being the neighbors
excluding the `parent_node` argument), `ns_parity` stores into the node and
returns `(sum over children of (1 - child's recursively computed parity)) mod 2`,
the children being updated by the recursive calls. -/
theorem syndrome_ns_parity_formula (r p : Int) (d : ℚ) (w : Int)
    (rl : List Int) (f : NForest) :
    ns_parity (.mk .syndrome r p d w rl f)
      = (.mk .syndrome r
          ((((forestList f).map (fun c => 1 - (ns_parity c).2)).sum) % 2) d w rl
          (parity_comprehension f).1,
         (((forestList f).map (fun c => 1 - (ns_parity c).2)).sum) % 2) := by
  simp [ns_parity, parity_comprehension_eq]

/-- Claim C3: for every `Junction` node (its children being the neighbors
excluding the `parent_node` argument), `ns_parity` stores into the node and
returns
`1 - ((sum over children of (1 - child's recursively computed parity)) mod 2)`,
the children being updated by the recursive calls. -/
theorem junction_ns_parity_formula (r p : Int) (d : ℚ) (w : Int)
    (rl : List Int) (f : NForest) :
    ns_parity (.mk .junction r p d w rl f)
      = (.mk .junction r
          (1 - (((forestList f).map (fun c => 1 - (ns_parity c).2)).sum) % 2) d w rl
          (parity_comprehension f).1,
         1 - (((forestList f).map (fun c => 1 - (ns_parity c).2)).sum) % 2) := by
  simp [ns_parity, parity_comprehension_eq]

/-- Claim C4, counterexample: adding two defect stabilizers to a fresh
cluster from `iGraph.add_cluster` leaves `parity = 2`, which is neither the
defect count modulo 2 (that is `0`) nor in `{0, 1}` — `add_stab` increments
`parity` without reducing modulo 2. -/
theorem cluster_parity_cex :
    (iCluster.add_stab_seq ((iGraph.init 3).add_cluster 0).2 [stT, stT]).parity = 2 ∧
    ¬ ((2 : Int) = 2 % 2) ∧ ¬ ((2 : Int) = 0 ∨ (2 : Int) = 1) := by
  refine ⟨rfl, by decide, by decide⟩

/-- Claim C4, amended: after any sequence of `iCluster.add_stab` calls on a
cluster created by `iGraph.add_cluster`, `parity` equals the raw count of
added stabilizers whose `state` is `True` (not reduced modulo 2) and `size`
equals the number of added stabilizers. -/
theorem cluster_parity_counts (g : iGraph) (cID : Int) (stabs : List iStab) :
    (iCluster.add_stab_seq (g.add_cluster cID).2 stabs).parity
        = ((stabs.filter (fun st => st.state)).length : Int) ∧
    (iCluster.add_stab_seq (g.add_cluster cID).2 stabs).size = (stabs.length : Int) := by
  have h := add_stab_seq_parity stabs (g.add_cluster cID).2
  have hp : ((g.add_cluster cID).2).parity = 0 := rfl
  have hsz : ((g.add_cluster cID).2).size = 0 := rfl
  rw [hp] at h
  rw [hsz] at h
  simpa using h

/-- Claim C5: on a graph whose stabilizer states are all `False`, after
`iGraph.measure_stab` a stabilizer's `state` is `True` iff an odd number of
the direction entries of its `neighbors` dict hold an edge with a truthy
state. -/
theorem measure_stab_defect_iff (g : iGraph)
    (h : ∀ p ∈ g.S, (p.2 : iStab).state = false) :
    ∀ p ∈ (iGraph.measure_stab g).S,
      (p.2.state = true ↔ Odd (truthy_neighbor_count g p.2.neighbors)) := by
  intro p hp
  simp only [iGraph.measure_stab, List.mem_map] at hp
  obtain ⟨q, hq, rfl⟩ := hp
  have hs : q.2.state = false := h q hq
  simp [measure_one_eq, hs]

/-- Claim C5, witness: on the concrete graph `gEx5` (one stabilizer that is
not a defect, seeing exactly one active edge), the measured state is `True`
iff the active-entry count `1` is odd. -/
theorem measure_stab_defect_iff_witness :
    (∀ p ∈ gEx5.S, (p.2 : iStab).state = false) ∧
    (∀ p ∈ (iGraph.measure_stab gEx5).S,
      (p.2.state = true ↔ Odd (truthy_neighbor_count gEx5 p.2.neighbors))) := by
  have h : ∀ p ∈ gEx5.S, (p.2 : iStab).state = false := by
    intro p hp
    simp only [gEx5, List.mem_singleton] at hp
    rw [hp]
    rfl
  exact ⟨h, measure_stab_defect_iff gEx5 h⟩

/-- Claim C6, counterexample: on the two-node tree `tEx` the root call
`ns_delay(None, None)` returns `1`, yet the root itself keeps delay `0`, so
the returned value is not the minimum delay over all nodes of the tree and
`delay - returned` is negative at the root — the root's own delay never
enters the running minimum. -/
theorem ns_delay_cex :
    (ns_delay tEx none none).2 = some 1 ∧
    (ns_delay tEx none none).1.delay = 0 ∧
    ¬ (0 ≤ (ns_delay tEx none none).1.delay - 1) := by
  refine ⟨?_, ?_, ?_⟩
  · simp [ns_delay, ns_delay_forest, tEx, pyMod1, pyNegOnePow, minStep]
  · simp [ns_delay, ns_delay_forest, tEx, NTree.delay]
  · simp [ns_delay, ns_delay_forest, tEx, NTree.delay]

/-- Claim C6, amended: the root call `ns_delay(None, None)` leaves the root's
delay unchanged and returns the minimum delay over the non-root nodes of the
tree — `None` when the root has no neighbors, else a value `v` attained by
some non-root node and satisfying `delay - v ≥ 0` for every non-root node
(the root itself is excluded from the minimum). -/
theorem ns_delay_root_min (t : NTree) :
    (ns_delay t none none).1.delay = t.delay ∧
    ((ns_delay t none none).2 = none →
      forestDelays (ns_delay t none none).1.children = []) ∧
    (∀ v, (ns_delay t none none).2 = some v →
      v ∈ forestDelays (ns_delay t none none).1.children ∧
      ∀ d ∈ forestDelays (ns_delay t none none).1.children, 0 ≤ d - v) := by
  refine ⟨?_, ?_, ?_⟩
  · cases t with
    | mk k r p d w rl f => simp [ns_delay, NTree.delay]
  · intro h
    rw [ns_delay_root_acc] at h
    exact accMin_none_eq_none _ h
  · intro v hv
    rw [ns_delay_root_acc] at hv
    constructor
    · rcases accMin_mem _ _ _ hv with hm | hm
      · exact absurd hm (by simp)
      · exact hm
    · intro d hd
      have := accMin_le_mem _ _ _ hv d hd
      linarith

/-- Claim C6, witness: on the concrete tree `tEx` the returned minimum is
`1`, it is attained among the non-root delays, and every non-root delay is
at least `1`. -/
theorem ns_delay_root_min_witness :
    ((ns_delay tEx none none).2 = some 1 ∧
      (1 : ℚ) ∈ forestDelays (ns_delay tEx none none).1.children ∧
      ∀ d ∈ forestDelays (ns_delay tEx none none).1.children, 0 ≤ d - 1) := by
  have h : (ns_delay tEx none none).2 = some 1 := by
    simp [ns_delay, ns_delay_forest, tEx, pyMod1, pyNegOnePow, minStep]
  have h2 := (ns_delay_root_min tEx).2.2 1 h
  exact ⟨h, h2.1, h2.2⟩

/-- Claim C7, counterexample: `iGraph.grow_reset` does not restore every
mutable iteration field to its constructor-initial value — on `gEx7` the
stabilizer's `state` stays `True` (constructor value `False`) and its `tree`
becomes `None` (constructor value `False`). -/
theorem grow_reset_cex :
    ((iGraph.grow_reset gEx7).S.map (fun p => p.2.state) = [true] ∧
      ¬ ((iGraph.grow_reset gEx7).S.map (fun p => p.2.state) = [false])) ∧
    ((iGraph.grow_reset gEx7).S.map (fun p => p.2.tree) = [none] ∧
      ¬ ((iGraph.grow_reset gEx7).S.map (fun p => p.2.tree) = [some false])) := by
  refine ⟨⟨rfl, by decide⟩, ⟨rfl, by decide⟩⟩

/-- Claim C7, amended: after `iGraph.grow_reset` the cluster dict is empty
and every stabilizer of `S` has `cluster = None` and `tree = None`, every
qubit's two edges have `cluster = None`, `support = 0`, `peeled = 0`; the
stabilizer `state`, edge `state`, edge `matching` and qubit `erasure` are
left unchanged, and the fixed fields (`sID`, `qID`, `neighbors` wiring, edge
`type`) are untouched. -/
theorem grow_reset_effects (g : iGraph) (st : iStab) (e : iEdge) (q : iQubit) :
    (iGraph.grow_reset g).C = [] ∧
    (iGraph.grow_reset g).S = g.S.map (fun p => (p.1, p.2.grow_reset)) ∧
    (iGraph.grow_reset g).Q = g.Q.map (fun p => (p.1, p.2.grow_reset)) ∧
    (iGraph.grow_reset g).B = g.B ∧ (iGraph.grow_reset g).size = g.size ∧
    (iStab.grow_reset st).cluster = none ∧ (iStab.grow_reset st).tree = none ∧
    (iStab.grow_reset st).state = st.state ∧ (iStab.grow_reset st).sID = st.sID ∧
    (iStab.grow_reset st).neighbors = st.neighbors ∧
    (iEdge.grow_reset e).cluster = none ∧ (iEdge.grow_reset e).support = 0 ∧
    (iEdge.grow_reset e).peeled = 0 ∧ (iEdge.grow_reset e).state = e.state ∧
    (iEdge.grow_reset e).matching = e.matching ∧ (iEdge.grow_reset e).type = e.type ∧
    (iQubit.grow_reset q).erasure = q.erasure ∧ (iQubit.grow_reset q).qID = q.qID ∧
    (iQubit.grow_reset q).VXE = q.VXE.grow_reset ∧ (iQubit.grow_reset q).PZE = q.PZE.grow_reset :=
  ⟨rfl, rfl, rfl, rfl, rfl, rfl, rfl, rfl, rfl, rfl, rfl, rfl, rfl, rfl, rfl, rfl, rfl, rfl, rfl, rfl⟩

/-- Claim C8: after `iGraph.reset` the cluster dict `C` is empty, every
stabilizer of `S` has `state = False`, `cluster = None`, `tree = False`,
every edge has `cluster = None`, `state = 0`, `support = 0`, `peeled = 0`,
`matching = 0`, every qubit has `erasure = 0`, and the fixed fields (`sID`,
`qID`, `neighbors` wiring, edge `type`) are unchanged (the `B` dict is not
traversed by the reset loop and is untouched). -/
theorem reset_effects (g : iGraph) (st : iStab) (e : iEdge) (q : iQubit) :
    (iGraph.reset g).C = [] ∧
    (iGraph.reset g).S = g.S.map (fun p => (p.1, p.2.reset)) ∧
    (iGraph.reset g).Q = g.Q.map (fun p => (p.1, p.2.reset)) ∧
    (iGraph.reset g).B = g.B ∧ (iGraph.reset g).size = g.size ∧
    (iStab.reset st).state = false ∧ (iStab.reset st).cluster = none ∧
    (iStab.reset st).tree = some false ∧ (iStab.reset st).sID = st.sID ∧
    (iStab.reset st).neighbors = st.neighbors ∧
    (iEdge.reset e).cluster = none ∧ (iEdge.reset e).state = 0 ∧
    (iEdge.reset e).support = 0 ∧ (iEdge.reset e).peeled = 0 ∧
    (iEdge.reset e).matching = 0 ∧ (iEdge.reset e).type = e.type ∧
    (iQubit.reset q).erasure = 0 ∧ (iQubit.reset q).qID = q.qID ∧
    (iQubit.reset q).VXE = q.VXE.reset ∧ (iQubit.reset q).PZE = q.PZE.reset :=
  ⟨rfl, rfl, rfl, rfl, rfl, rfl, rfl, rfl, rfl, rfl, rfl, rfl, rfl, rfl, rfl, rfl, rfl, rfl, rfl, rfl⟩

/-- Claim C9: freshly constructed `Boundary` and `Filler` nodes have
`parity = 1`, and on any `Boundary`/`Filler` node `ns_parity` returns the
stored parity without recursing into the neighbors and without modifying
any node — in particular on a fresh node it returns `1`. -/
theorem boundary_filler_parity_fixed (r p : Int) (d : ℚ) (w : Int)
    (rl : List Int) (f : NForest) :
    ns_parity (.mk .boundary r p d w rl f) = (.mk .boundary r p d w rl f, p) ∧
    ns_parity (.mk .filler r p d w rl f) = (.mk .filler r p d w rl f, p) ∧
    (node_init .boundary).parity = 1 ∧ (node_init .filler).parity = 1 ∧
    ns_parity (node_init .boundary) = (node_init .boundary, 1) ∧
    ns_parity (node_init .filler) = (node_init .filler, 1) :=
  ⟨rfl, rfl, rfl, rfl, rfl, rfl⟩

/-- Claim C10: `ns_delay` with `parent = None` leaves the called node's own
`delay` field unchanged (only descendants get recomputed delays), and on a
freshly constructed node — which has no neighbors and `delay = 0` — the call
returns the node unchanged together with the `min_delay` argument as passed
(`None` when omitted). -/
theorem ns_delay_root_frame (t : NTree) (m : Option ℚ) (k : NKind) :
    (ns_delay t none m).1.delay = t.delay ∧
    (node_init k).delay = 0 ∧
    ns_delay (node_init k) none m = (node_init k, m) := by
  refine ⟨?_, ?_, ?_⟩
  · cases t with
    | mk k r p d w rl f => simp [ns_delay, NTree.delay]
  · cases k <;> rfl
  · cases k <;> rfl
